import Mathlib

/-!
# Console character writer (`prog/conio/cputc.c`)

A shallow embedding of `cputc` from episode 25 ("Basic OS") of the
"Design Your Own Computer" series, together with the properties of its
line-wrap behaviour.

`cputc` reads and writes the global column counter `pos_x`, compares it
against the line width `H_CHARS`, and calls two primitives, `putchar` and
`newline`.  The header `comp.h` that declares the counter, the width and the
two primitives is not among the sources, so:

* `H_CHARS` is a parameter of the embedding;
* `pos_x` is an unsigned counter of `POS_BITS` bits (the file includes
  `<stdint.h>` for `uint8_t`, which is `POS_BITS = 8`): its values are natural
  numbers below `2 ^ POS_BITS`, and `pos_x++` is `(pos_x + 1) % 2 ^ POS_BITS`;
  the comparison `pos_x >= H_CHARS` is made after integer promotion, on the
  mathematical values;
* the primitives are recorded as calls in a log carried by the state.
-/

namespace Conio

/-- A call made to one of the two primitives declared in `comp.h`.  Each call
records the value the global `pos_x` has at the moment the primitive is
entered. -/
inductive Call where
  | putchar (ch : Char) (pos_x : Nat)
  | newline (pos_x : Nat)
  deriving DecidableEq, Repr

/-- The state `cputc` works on: the global `pos_x` and the log of calls made
to the primitives so far, oldest first. -/
structure Console where
  pos_x : Nat
  calls : List Call
  deriving DecidableEq, Repr

/-- Modelled from the spec: the body of `putchar` (declared in `comp.h`) is
missing.  The spec describes it as a character-emit primitive that "accepts
one character", is "assumed infallible and side-effect-only"; here the call
is appended to the log and `pos_x` is left as it is. -/
def putchar (ch : Char) (s : Console) : Console :=
  { s with calls := s.calls ++ [Call.putchar ch s.pos_x] }

/-- Modelled from the spec: the body of `newline` (declared in `comp.h`) is
missing.  The spec describes it as the line-advance primitive, "assumed
infallible; its internal behavior is out of scope"; here the call is appended
to the log and `pos_x` is left as it is. -/
def newline (s : Console) : Console :=
  { s with calls := s.calls ++ [Call.newline s.pos_x] }

/-- The function `cputc` of `cputc.c`, statement by statement.  `POS_BITS` is
the width of the unsigned type of `pos_x`, so that `pos_x++` wraps to 0 after
the largest value `2 ^ POS_BITS - 1`. -/
def cputc (POS_BITS H_CHARS : Nat) (ch : Char) (s : Console) : Console :=
  if ch = '\n' then
    let s := { s with pos_x := 0 }
    newline s
  else
    let s := putchar ch s
    let s := { s with pos_x := (s.pos_x + 1) % 2 ^ POS_BITS }
    -- End of line, just start at next line
    if s.pos_x ≥ H_CHARS then
      let s := { s with pos_x := 0 }
      newline s
    else
      s

/-- A finite sequence of `cputc` calls, one per character, first to last. -/
def cputcAll (POS_BITS H_CHARS : Nat) : List Char → Console → Console
  | [], s => s
  | ch :: rest, s => cputcAll POS_BITS H_CHARS rest (cputc POS_BITS H_CHARS ch s)

/-- Number of calls to `newline` in a log. -/
def newlineCount : List Call → Nat
  | [] => 0
  | Call.newline _ :: rest => newlineCount rest + 1
  | Call.putchar _ _ :: rest => newlineCount rest

/-- The characters handed to `putchar` in a log, in call order. -/
def putcharArgs : List Call → List Char
  | [] => []
  | Call.putchar ch _ :: rest => ch :: putcharArgs rest
  | Call.newline _ :: rest => putcharArgs rest

/-- The calls one invocation `cputc(ch)` adds to the log when it starts with
`pos_x = p`. -/
def callsOf (POS_BITS H_CHARS : Nat) (ch : Char) (p : Nat) : List Call :=
  (cputc POS_BITS H_CHARS ch ⟨p, []⟩).calls

/-! ## Basic facts about the log -/

theorem newlineCount_append (xs ys : List Call) :
    newlineCount (xs ++ ys) = newlineCount xs + newlineCount ys := by
  induction xs with
  | nil => simp [newlineCount]
  | cons x xs ih =>
    cases x with
    | putchar c q => simp [newlineCount, ih]
    | newline q => simp [newlineCount, ih]; omega

theorem putcharArgs_append (xs ys : List Call) :
    putcharArgs (xs ++ ys) = putcharArgs xs ++ putcharArgs ys := by
  induction xs with
  | nil => simp [putcharArgs]
  | cons x xs ih =>
    cases x with
    | putchar c q => simp [putcharArgs, ih]
    | newline q => simp [putcharArgs, ih]

/-- The log only grows: a call of `cputc` appends `callsOf` to it. -/
theorem cputc_calls (POS_BITS H_CHARS : Nat) (ch : Char) (s : Console) :
    (cputc POS_BITS H_CHARS ch s).calls =
      s.calls ++ callsOf POS_BITS H_CHARS ch s.pos_x := by
  unfold callsOf cputc putchar newline
  by_cases hc : ch = '\n'
  · simp [hc]
  · by_cases hw : (s.pos_x + 1) % 2 ^ POS_BITS ≥ H_CHARS
    · simp [hc, hw]
    · simp [hc, hw]

/-- The new column depends only on the old column, not on the log. -/
theorem cputc_pos_x (POS_BITS H_CHARS : Nat) (ch : Char) (s : Console) :
    (cputc POS_BITS H_CHARS ch s).pos_x =
      if ch = '\n' then 0
      else if (s.pos_x + 1) % 2 ^ POS_BITS ≥ H_CHARS then 0
      else (s.pos_x + 1) % 2 ^ POS_BITS := by
  unfold cputc putchar newline
  by_cases hc : ch = '\n'
  · simp [hc]
  · by_cases hw : (s.pos_x + 1) % 2 ^ POS_BITS ≥ H_CHARS
    · simp [hc, hw]
    · simp [hc, hw]

theorem callsOf_eq (POS_BITS H_CHARS : Nat) (ch : Char) (p : Nat) :
    callsOf POS_BITS H_CHARS ch p =
      if ch = '\n' then [Call.newline 0]
      else if (p + 1) % 2 ^ POS_BITS ≥ H_CHARS then [Call.putchar ch p, Call.newline 0]
      else [Call.putchar ch p] := by
  unfold callsOf cputc putchar newline
  by_cases hc : ch = '\n'
  · simp [hc]
  · by_cases hw : (p + 1) % 2 ^ POS_BITS ≥ H_CHARS
    · simp [hc, hw]
    · simp [hc, hw]

/-- Effect of one call on the number of `newline` calls and on the characters
handed to `putchar`. -/
theorem cputc_newlineCount (POS_BITS H_CHARS : Nat) (ch : Char) (s : Console) :
    newlineCount (cputc POS_BITS H_CHARS ch s).calls =
      newlineCount s.calls + newlineCount (callsOf POS_BITS H_CHARS ch s.pos_x) := by
  rw [cputc_calls, newlineCount_append]

theorem cputc_putcharArgs (POS_BITS H_CHARS : Nat) (ch : Char) (s : Console) :
    putcharArgs (cputc POS_BITS H_CHARS ch s).calls =
      putcharArgs s.calls ++ putcharArgs (callsOf POS_BITS H_CHARS ch s.pos_x) := by
  rw [cputc_calls, putcharArgs_append]

/-- The increment does not wrap on a column below a width that the counter can
hold. -/
theorem incr_no_wrap (POS_BITS H_CHARS p : Nat)
    (hp : p < H_CHARS) (hB : H_CHARS ≤ 2 ^ POS_BITS) (hne : p + 1 ≠ 2 ^ POS_BITS) :
    (p + 1) % 2 ^ POS_BITS = p + 1 :=
  Nat.mod_eq_of_lt (by omega)

/-- One non-newline character written from an in-range column, for a width the
counter can hold: the column moves to the successor modulo the width, and
`newline` is called once exactly when the successor reaches the width. -/
theorem cputc_step_mod (POS_BITS H_CHARS : Nat) (ch : Char) (s : Console)
    (hc : ch ≠ '\n') (hs : s.pos_x < H_CHARS) (hB : H_CHARS < 2 ^ POS_BITS) :
    (cputc POS_BITS H_CHARS ch s).pos_x = (s.pos_x + 1) % H_CHARS ∧
    newlineCount (cputc POS_BITS H_CHARS ch s).calls =
      newlineCount s.calls + (s.pos_x + 1) / H_CHARS := by
  have hinc : (s.pos_x + 1) % 2 ^ POS_BITS = s.pos_x + 1 :=
    incr_no_wrap POS_BITS H_CHARS s.pos_x hs (Nat.le_of_lt hB) (by omega)
  rw [cputc_newlineCount, cputc_pos_x, callsOf_eq, hinc]
  by_cases hw : s.pos_x + 1 ≥ H_CHARS
  · have he : s.pos_x + 1 = H_CHARS := by omega
    have hpos : 0 < H_CHARS := by omega
    simp [hc, hw, newlineCount, he, Nat.div_self hpos]
  · have hlt : s.pos_x + 1 < H_CHARS := by omega
    simp [hc, hw, newlineCount, Nat.mod_eq_of_lt hlt, Nat.div_eq_of_lt hlt]

/-- Writing a concatenation is writing the first part, then the second. -/
theorem cputcAll_append (POS_BITS H_CHARS : Nat) (xs ys : List Char) (s : Console) :
    cputcAll POS_BITS H_CHARS (xs ++ ys) s =
      cputcAll POS_BITS H_CHARS ys (cputcAll POS_BITS H_CHARS xs s) := by
  induction xs generalizing s with
  | nil => simp [cputcAll]
  | cons x rest ih => simp only [List.cons_append, cputcAll]; exact ih _

/-- Writing one character is one call of `cputc`. -/
theorem cputcAll_singleton (POS_BITS H_CHARS : Nat) (c : Char) (s : Console) :
    cputcAll POS_BITS H_CHARS [c] s = cputc POS_BITS H_CHARS c s := rfl

/-- Column and `newline` count after a run of non-newline characters started in
range, by iterating `cputc_step_mod`. -/
theorem cputcAll_run (POS_BITS H_CHARS : Nat) (cs : List Char) (s : Console)
    (hs : s.pos_x < H_CHARS) (hB : H_CHARS < 2 ^ POS_BITS)
    (hcs : ∀ c ∈ cs, c ≠ '\n') :
    (cputcAll POS_BITS H_CHARS cs s).pos_x = (s.pos_x + cs.length) % H_CHARS ∧
    newlineCount (cputcAll POS_BITS H_CHARS cs s).calls =
      newlineCount s.calls + (s.pos_x + cs.length) / H_CHARS := by
  have hpos : 0 < H_CHARS := by omega
  induction cs generalizing s with
  | nil => simp [cputcAll, Nat.mod_eq_of_lt hs, Nat.div_eq_of_lt hs]
  | cons c rest ih =>
    have hc : c ≠ '\n' := hcs c (List.mem_cons_self c rest)
    obtain ⟨hx, hk⟩ := cputc_step_mod POS_BITS H_CHARS c s hc hs hB
    have hin : (cputc POS_BITS H_CHARS c s).pos_x < H_CHARS := by
      rw [hx]; exact Nat.mod_lt _ hpos
    obtain ⟨ihx, ihk⟩ :=
      ih (cputc POS_BITS H_CHARS c s) hin (fun d hd => hcs d (List.mem_cons_of_mem c hd))
    have hsplit : s.pos_x + (rest.length + 1) = (s.pos_x + 1) + rest.length := by omega
    simp only [cputcAll, List.length_cons]
    rw [ihx, ihk, hx, hk, hsplit]
    constructor
    · rw [Nat.mod_add_mod]
    · have hdm := Nat.div_add_mod (s.pos_x + 1) H_CHARS
      have hq : (s.pos_x + 1 + rest.length) / H_CHARS =
          (s.pos_x + 1) / H_CHARS + ((s.pos_x + 1) % H_CHARS + rest.length) / H_CHARS := by
        conv_lhs => rw [← hdm]
        rw [Nat.add_assoc, Nat.mul_add_div hpos]
      rw [hq, Nat.add_assoc]

/-- When the width is not a value of the counter (`2 ^ POS_BITS <= H_CHARS`),
the test `pos_x >= H_CHARS` never succeeds: a run of non-newline characters
calls `newline` zero times and the column only counts modulo `2 ^ POS_BITS`. -/
theorem cputcAll_run_no_wrap (POS_BITS H_CHARS : Nat) (cs : List Char) (s : Console)
    (hB : 2 ^ POS_BITS ≤ H_CHARS) (hcs : ∀ c ∈ cs, c ≠ '\n') :
    (cputcAll POS_BITS H_CHARS cs s).pos_x % 2 ^ POS_BITS =
      (s.pos_x + cs.length) % 2 ^ POS_BITS ∧
    newlineCount (cputcAll POS_BITS H_CHARS cs s).calls = newlineCount s.calls := by
  have hM : 0 < 2 ^ POS_BITS := Nat.two_pow_pos POS_BITS
  induction cs generalizing s with
  | nil => simp [cputcAll]
  | cons c rest ih =>
    have hc : c ≠ '\n' := hcs c (List.mem_cons_self c rest)
    have hlt : (s.pos_x + 1) % 2 ^ POS_BITS < 2 ^ POS_BITS := Nat.mod_lt _ hM
    have hw : ¬ (s.pos_x + 1) % 2 ^ POS_BITS ≥ H_CHARS := by omega
    have hx : (cputc POS_BITS H_CHARS c s).pos_x = (s.pos_x + 1) % 2 ^ POS_BITS := by
      rw [cputc_pos_x, if_neg hc, if_neg hw]
    have hk : newlineCount (cputc POS_BITS H_CHARS c s).calls = newlineCount s.calls := by
      rw [cputc_newlineCount, callsOf_eq, if_neg hc, if_neg hw]; simp [newlineCount]
    obtain ⟨ihx, ihk⟩ :=
      ih (cputc POS_BITS H_CHARS c s) (fun d hd => hcs d (List.mem_cons_of_mem c hd))
    simp only [cputcAll, List.length_cons]
    rw [ihx, ihk, hx, hk]
    refine ⟨?_, rfl⟩
    rw [Nat.mod_add_mod]
    congr 1
    omega

/-! ## Newline -/

/-- C1: for every prior value of `pos_x` (and every line width), `cputc('\n')`
leaves `pos_x = 0`, calls `newline` exactly once and does not call `putchar`:
the call adds exactly one entry, a `newline`, to the log. -/
theorem cputc_newline (POS_BITS H_CHARS : Nat) (s : Console) :
    (cputc POS_BITS H_CHARS '\n' s).pos_x = 0 ∧
    (cputc POS_BITS H_CHARS '\n' s).calls = s.calls ++ [Call.newline 0] ∧
    newlineCount (cputc POS_BITS H_CHARS '\n' s).calls = newlineCount s.calls + 1 ∧
    putcharArgs (cputc POS_BITS H_CHARS '\n' s).calls = putcharArgs s.calls := by
  refine ⟨?_, ?_, ?_, ?_⟩
  · simp [cputc_pos_x]
  · simp [cputc_calls, callsOf_eq]
  · simp [cputc_newlineCount, callsOf_eq, newlineCount]
  · simp [cputc_putcharArgs, callsOf_eq, putcharArgs]

/-! ## Ordinary characters -/

/-- C2, as stated for every `H_CHARS`, fails for an 8-bit `pos_x` (`uint8_t`)
when the width exceeds the 256 values of the counter: with `H_CHARS = 300` and
`pos_x = 255` (which is below `H_CHARS - 1`), `cputc('A')` increments `pos_x`
to 0, not to 256. -/
theorem cputc_inside_line_counterexample :
    ('A' ≠ '\n' ∧ (0 ≤ 255 ∧ 255 < 300 - 1)) ∧
    (cputc 8 300 'A' ⟨255, []⟩).pos_x = 0 ∧
    ¬ ((cputc 8 300 'A' ⟨255, []⟩).pos_x = 255 + 1) := by
  decide

/-- C2 (amended): for every character `c` other than newline, every width
`H_CHARS` that does not exceed the number of values of the counter
(`H_CHARS <= 2 ^ POS_BITS`, 256 for `uint8_t`) and every column `p` with
`0 <= p < H_CHARS - 1`, `cputc(c)` called with `pos_x = p` leaves
`pos_x = p + 1` and calls `newline` zero times (the only call it makes is
`putchar(c)`). -/
theorem cputc_inside_line (POS_BITS H_CHARS : Nat) (c : Char) (s : Console)
    (hB : H_CHARS ≤ 2 ^ POS_BITS)
    (hc : c ≠ '\n') (hp : 0 ≤ s.pos_x ∧ s.pos_x < H_CHARS - 1) :
    (cputc POS_BITS H_CHARS c s).pos_x = s.pos_x + 1 ∧
    (cputc POS_BITS H_CHARS c s).calls = s.calls ++ [Call.putchar c s.pos_x] ∧
    newlineCount (cputc POS_BITS H_CHARS c s).calls = newlineCount s.calls := by
  have hinc : (s.pos_x + 1) % 2 ^ POS_BITS = s.pos_x + 1 :=
    incr_no_wrap POS_BITS H_CHARS s.pos_x (by omega) hB (by omega)
  have hw : ¬ s.pos_x + 1 ≥ H_CHARS := by omega
  refine ⟨?_, ?_, ?_⟩
  · rw [cputc_pos_x, hinc]; simp [hc, hw]
  · rw [cputc_calls, callsOf_eq, hinc]; simp [hc, hw]
  · rw [cputc_newlineCount, callsOf_eq, hinc]; simp [hc, hw, newlineCount]

theorem cputc_inside_line_witness :
    ((40 ≤ 2 ^ 8) ∧ 'A' ≠ '\n' ∧ (0 ≤ 5 ∧ 5 < 40 - 1)) ∧
    (cputc 8 40 'A' ⟨5, []⟩).pos_x = 5 + 1 ∧
    (cputc 8 40 'A' ⟨5, []⟩).calls = [] ++ [Call.putchar 'A' 5] ∧
    newlineCount (cputc 8 40 'A' ⟨5, []⟩).calls = newlineCount [] :=
  ⟨by decide, cputc_inside_line 8 40 'A' ⟨5, []⟩ (by decide) (by decide) (by decide)⟩

/-- C3, as stated for every `H_CHARS >= 1`, fails for an 8-bit `pos_x`
(`uint8_t`) at `H_CHARS = 256`: from `pos_x = 255 = H_CHARS - 1`, `cputc('A')`
increments `pos_x` to 0, the test `0 >= 256` fails, and `newline` is not
called; the only call made is `putchar('A')`. -/
theorem cputc_end_of_line_counterexample :
    (1 ≤ 256 ∧ 'A' ≠ '\n' ∧ (255 : Nat) = 256 - 1) ∧
    (cputc 8 256 'A' ⟨255, []⟩).calls = [Call.putchar 'A' 255] ∧
    ¬ (newlineCount (cputc 8 256 'A' ⟨255, []⟩).calls = newlineCount [] + 1) := by
  decide

/-- C3 (amended): for every `H_CHARS >= 1` that is itself a value of the
counter (`H_CHARS < 2 ^ POS_BITS`, at most 255 for `uint8_t`) and every
character `c` other than newline, `cputc(c)` called with
`pos_x = H_CHARS - 1` leaves `pos_x = 0` and calls `newline` exactly once,
after having called `putchar(c)`. -/
theorem cputc_end_of_line (POS_BITS H_CHARS : Nat) (c : Char) (s : Console)
    (hH : 1 ≤ H_CHARS) (hB : H_CHARS < 2 ^ POS_BITS)
    (hc : c ≠ '\n') (hp : s.pos_x = H_CHARS - 1) :
    (cputc POS_BITS H_CHARS c s).pos_x = 0 ∧
    (cputc POS_BITS H_CHARS c s).calls =
      s.calls ++ [Call.putchar c (H_CHARS - 1), Call.newline 0] ∧
    newlineCount (cputc POS_BITS H_CHARS c s).calls = newlineCount s.calls + 1 := by
  have hinc : (s.pos_x + 1) % 2 ^ POS_BITS = s.pos_x + 1 :=
    incr_no_wrap POS_BITS H_CHARS s.pos_x (by omega) (Nat.le_of_lt hB) (by omega)
  have hw : s.pos_x + 1 ≥ H_CHARS := by omega
  refine ⟨?_, ?_, ?_⟩
  · rw [cputc_pos_x, hinc]; simp [hc, hw]
  · rw [cputc_calls, callsOf_eq, hinc, if_neg hc, if_pos hw, hp]
  · rw [cputc_newlineCount, callsOf_eq, hinc]; simp [hc, hw, newlineCount]

theorem cputc_end_of_line_witness :
    (1 ≤ 40 ∧ 40 < 2 ^ 8 ∧ 'A' ≠ '\n' ∧ (39 : Nat) = 40 - 1) ∧
    (cputc 8 40 'A' ⟨39, []⟩).pos_x = 0 ∧
    (cputc 8 40 'A' ⟨39, []⟩).calls =
      [] ++ [Call.putchar 'A' (40 - 1), Call.newline 0] ∧
    newlineCount (cputc 8 40 'A' ⟨39, []⟩).calls = newlineCount [] + 1 :=
  ⟨by decide,
   cputc_end_of_line 8 40 'A' ⟨39, []⟩ (by decide) (by decide) (by decide) rfl⟩

/-! ## The column range -/

/-- C5: after any single call `cputc(ch)`, for every character `ch` and every
prior value of `pos_x`, in range or not, the resulting state satisfies
`0 <= pos_x < H_CHARS`: the call establishes the range by itself.  The line
width is positive (`H_CHARS >= 1`); for a width of 0 the range is empty. -/
theorem cputc_establishes_range (POS_BITS H_CHARS : Nat) (ch : Char) (s : Console)
    (hH : 1 ≤ H_CHARS) :
    0 ≤ (cputc POS_BITS H_CHARS ch s).pos_x ∧
    (cputc POS_BITS H_CHARS ch s).pos_x < H_CHARS := by
  refine ⟨Nat.zero_le _, ?_⟩
  rw [cputc_pos_x]
  by_cases hc : ch = '\n'
  · simp [hc]; omega
  · by_cases hw : (s.pos_x + 1) % 2 ^ POS_BITS ≥ H_CHARS
    · simp [hc, hw]; omega
    · simp only [if_neg hc, if_neg hw]; omega

theorem cputc_establishes_range_witness :
    1 ≤ 40 ∧
    0 ≤ (cputc 8 40 'A' ⟨200, []⟩).pos_x ∧ (cputc 8 40 'A' ⟨200, []⟩).pos_x < 40 :=
  ⟨by decide, cputc_establishes_range 8 40 'A' ⟨200, []⟩ (by decide)⟩

/-- C4: the range `0 <= pos_x < H_CHARS` is an invariant of the writer: with
`H_CHARS >= 1` and a starting state in range, the state is still in range
after every finite sequence of `cputc` calls on arbitrary characters. -/
theorem cputcAll_range (POS_BITS H_CHARS : Nat) (cs : List Char) (s : Console)
    (hH : 1 ≤ H_CHARS) (hs : 0 ≤ s.pos_x ∧ s.pos_x < H_CHARS) :
    0 ≤ (cputcAll POS_BITS H_CHARS cs s).pos_x ∧
    (cputcAll POS_BITS H_CHARS cs s).pos_x < H_CHARS := by
  induction cs generalizing s with
  | nil => simpa [cputcAll] using hs
  | cons c rest ih =>
    simp only [cputcAll]
    apply ih
    rw [cputc_pos_x]
    by_cases hc : c = '\n'
    · simp [hc]; omega
    · by_cases hw : (s.pos_x + 1) % 2 ^ POS_BITS ≥ H_CHARS
      · simp [hc, hw]; omega
      · simp only [if_neg hc, if_neg hw]; omega

theorem cputcAll_range_witness :
    (1 ≤ 3 ∧ (0 ≤ 0 ∧ 0 < 3)) ∧
    0 ≤ (cputcAll 8 3 ['a', 'b', '\n', 'c', 'd', 'e', 'f'] ⟨0, []⟩).pos_x ∧
    (cputcAll 8 3 ['a', 'b', '\n', 'c', 'd', 'e', 'f'] ⟨0, []⟩).pos_x < 3 :=
  ⟨by decide,
   cputcAll_range 8 3 ['a', 'b', '\n', 'c', 'd', 'e', 'f'] ⟨0, []⟩ (by decide) (by decide)⟩

/-! ## Calls made to the primitives -/

/-- C6: for every character `ch` other than newline and every prior state,
`cputc(ch)` calls `putchar` exactly once, with argument `ch`, and before any
`newline` call of the same invocation: the calls it adds to the log are
`[putchar ch]` or `[putchar ch, newline]`. -/
theorem cputc_emits_first (POS_BITS H_CHARS : Nat) (ch : Char) (s : Console)
    (hc : ch ≠ '\n') :
    ((cputc POS_BITS H_CHARS ch s).calls = s.calls ++ [Call.putchar ch s.pos_x] ∨
     (cputc POS_BITS H_CHARS ch s).calls =
       s.calls ++ [Call.putchar ch s.pos_x, Call.newline 0]) ∧
    putcharArgs (cputc POS_BITS H_CHARS ch s).calls = putcharArgs s.calls ++ [ch] := by
  rw [cputc_putcharArgs, cputc_calls, callsOf_eq]
  by_cases hw : (s.pos_x + 1) % 2 ^ POS_BITS ≥ H_CHARS
  · simp [hc, hw, putcharArgs]
  · simp [hc, hw, putcharArgs]

theorem cputc_emits_first_witness :
    'A' ≠ '\n' ∧
    (((cputc 8 40 'A' ⟨39, []⟩).calls = [] ++ [Call.putchar 'A' 39] ∨
      (cputc 8 40 'A' ⟨39, []⟩).calls =
        [] ++ [Call.putchar 'A' 39, Call.newline 0]) ∧
     putcharArgs (cputc 8 40 'A' ⟨39, []⟩).calls = putcharArgs [] ++ ['A']) :=
  ⟨by decide, cputc_emits_first 8 40 'A' ⟨39, []⟩ (by decide)⟩

/-- C7: whenever `cputc` calls `newline`, on a newline character or on an
end-of-line wrap, `pos_x` has already been set to 0: every `newline` entry
the invocation adds to the log was entered with `pos_x = 0`. -/
theorem cputc_newline_sees_zero (POS_BITS H_CHARS : Nat) (ch : Char) (s : Console)
    (q : Nat)
    (hq : Call.newline q ∈ (cputc POS_BITS H_CHARS ch s).calls.drop s.calls.length) :
    q = 0 := by
  rw [cputc_calls, List.drop_left, callsOf_eq] at hq
  by_cases hc : ch = '\n'
  · simpa [hc] using hq
  · by_cases hw : (s.pos_x + 1) % 2 ^ POS_BITS ≥ H_CHARS
    · simpa [hc, hw] using hq
    · simp [hc, hw] at hq

theorem cputc_newline_sees_zero_witness :
    Call.newline 0 ∈ (cputc 8 40 'A' ⟨39, [Call.newline 7]⟩).calls.drop
        (Console.mk 39 [Call.newline 7]).calls.length ∧
    (0 : Nat) = 0 :=
  ⟨by decide, cputc_newline_sees_zero 8 40 'A' ⟨39, [Call.newline 7]⟩ 0 (by decide)⟩

/-! ## Sequences of characters -/

/-- C8, as stated for every `H_CHARS >= 1`, fails for an 8-bit `pos_x`
(`uint8_t`) at `H_CHARS = 256`: from `pos_x = 250`, ten non-newline characters
take `pos_x` through 255 and back to 0 by the wrap of the counter, ending at 4,
and `newline` is never called, although `(250 + 10) div 256 = 1`. -/
theorem cputcAll_wrap_arith_counterexample :
    (1 ≤ 256 ∧ (0 ≤ 250 ∧ 250 < 256) ∧
      ['a', 'b', 'c', 'd', 'e', 'f', 'g', 'h', 'i', 'j'].length = 10 ∧
      ∀ c ∈ ['a', 'b', 'c', 'd', 'e', 'f', 'g', 'h', 'i', 'j'], c ≠ '\n') ∧
    (cputcAll 8 256 ['a', 'b', 'c', 'd', 'e', 'f', 'g', 'h', 'i', 'j'] ⟨250, []⟩).pos_x = 4 ∧
    newlineCount
      (cputcAll 8 256 ['a', 'b', 'c', 'd', 'e', 'f', 'g', 'h', 'i', 'j'] ⟨250, []⟩).calls = 0 ∧
    ¬ (newlineCount
        (cputcAll 8 256 ['a', 'b', 'c', 'd', 'e', 'f', 'g', 'h', 'i', 'j'] ⟨250, []⟩).calls =
      newlineCount [] + (250 + 10) / 256) := by
  decide

/-- C8 (amended): for every `H_CHARS >= 1` that is itself a value of the
counter (`H_CHARS < 2 ^ POS_BITS`, at most 255 for `uint8_t`), every start
column `p` with `0 <= p < H_CHARS` and every `n >= 0`, writing `n` characters
none of which is a newline leaves `pos_x = (p + n) mod H_CHARS` and calls
`newline` exactly `(p + n) div H_CHARS` times. -/
theorem cputcAll_wrap_arith (POS_BITS H_CHARS : Nat) (n : Nat) (cs : List Char)
    (s : Console)
    (hH : 1 ≤ H_CHARS) (hB : H_CHARS < 2 ^ POS_BITS)
    (hs : 0 ≤ s.pos_x ∧ s.pos_x < H_CHARS)
    (hn : cs.length = n) (hcs : ∀ c ∈ cs, c ≠ '\n') :
    (cputcAll POS_BITS H_CHARS cs s).pos_x = (s.pos_x + n) % H_CHARS ∧
    newlineCount (cputcAll POS_BITS H_CHARS cs s).calls =
      newlineCount s.calls + (s.pos_x + n) / H_CHARS := by
  subst hn
  have hpos : 0 < H_CHARS := hH
  induction cs generalizing s with
  | nil =>
    simp [cputcAll, Nat.mod_eq_of_lt hs.2, Nat.div_eq_of_lt hs.2]
  | cons c rest ih =>
    have hc : c ≠ '\n' := hcs c (List.mem_cons_self c rest)
    have hrest : ∀ d ∈ rest, d ≠ '\n' := fun d hd => hcs d (List.mem_cons_of_mem c hd)
    obtain ⟨hx, hk⟩ := cputc_step_mod POS_BITS H_CHARS c s hc hs.2 hB
    have hin : 0 ≤ (cputc POS_BITS H_CHARS c s).pos_x ∧
        (cputc POS_BITS H_CHARS c s).pos_x < H_CHARS := by
      rw [hx]; exact ⟨Nat.zero_le _, Nat.mod_lt _ hpos⟩
    obtain ⟨ihx, ihk⟩ := ih (cputc POS_BITS H_CHARS c s) hin hrest
    have hsplit : s.pos_x + (rest.length + 1) = (s.pos_x + 1) + rest.length := by omega
    simp only [cputcAll, List.length_cons]
    rw [ihx, ihk, hx, hk, hsplit]
    constructor
    · rw [Nat.mod_add_mod]
    · have hdm := Nat.div_add_mod (s.pos_x + 1) H_CHARS
      have hq : (s.pos_x + 1 + rest.length) / H_CHARS =
          (s.pos_x + 1) / H_CHARS + ((s.pos_x + 1) % H_CHARS + rest.length) / H_CHARS := by
        conv_lhs => rw [← hdm]
        rw [Nat.add_assoc, Nat.mul_add_div hpos]
      rw [hq, Nat.add_assoc]

theorem cputcAll_wrap_arith_witness :
    (1 ≤ 4 ∧ 4 < 2 ^ 8 ∧ (0 ≤ 1 ∧ 1 < 4) ∧
      ['a', 'b', 'c', 'd', 'e', 'f', 'g'].length = 7 ∧
      ∀ c ∈ ['a', 'b', 'c', 'd', 'e', 'f', 'g'], c ≠ '\n') ∧
    (cputcAll 8 4 ['a', 'b', 'c', 'd', 'e', 'f', 'g'] ⟨1, []⟩).pos_x = (1 + 7) % 4 ∧
    newlineCount (cputcAll 8 4 ['a', 'b', 'c', 'd', 'e', 'f', 'g'] ⟨1, []⟩).calls =
      newlineCount [] + (1 + 7) / 4 :=
  ⟨by decide,
   cputcAll_wrap_arith 8 4 7 ['a', 'b', 'c', 'd', 'e', 'f', 'g'] ⟨1, []⟩
     (by decide) (by decide) (by decide) rfl (by decide)⟩

/-- C9: for every finite sequence of characters written one by one through
`cputc` from any starting state, the characters handed to `putchar` are the
input sequence with every newline removed, in the same order. -/
theorem cputcAll_putcharArgs (POS_BITS H_CHARS : Nat) (cs : List Char) (s : Console) :
    putcharArgs (cputcAll POS_BITS H_CHARS cs s).calls =
      putcharArgs s.calls ++ cs.filter (fun c => c != '\n') := by
  induction cs generalizing s with
  | nil => simp [cputcAll]
  | cons c rest ih =>
    simp only [cputcAll]
    rw [ih, cputc_putcharArgs, callsOf_eq]
    by_cases hc : c = '\n'
    · simp [hc, putcharArgs]
    · by_cases hw : (s.pos_x + 1) % 2 ^ POS_BITS ≥ H_CHARS
      · simp [hc, hw, putcharArgs]
      · simp [hc, hw, putcharArgs]

/-- C10, as stated for every `H_CHARS >= 1`, fails for an 8-bit `pos_x`
(`uint8_t`) at `H_CHARS = 256`: from the in-range column `pos_x = 255`,
`cputc('A')` ends with `pos_x = 0` by the wrap of the counter without calling
`newline`, so "`newline` is called iff the resulting `pos_x` is 0" is false. -/
theorem cputc_newline_iff_counterexample :
    (1 ≤ 256 ∧ (0 ≤ 255 ∧ 255 < 256)) ∧
    (cputc 8 256 'A' ⟨255, []⟩).pos_x = 0 ∧
    newlineCount (cputc 8 256 'A' ⟨255, []⟩).calls = newlineCount [] ∧
    ¬ (newlineCount (cputc 8 256 'A' ⟨255, []⟩).calls = newlineCount [] + 1 ↔
        (cputc 8 256 'A' ⟨255, []⟩).pos_x = 0) := by
  decide

/-- C10 (amended): for every `H_CHARS >= 1` that is itself a value of the
counter (`H_CHARS < 2 ^ POS_BITS`, at most 255 for `uint8_t`), every in-range
prior state and every character `ch`, a call `cputc(ch)` calls `newline` at
most once, and it does so if and only if the resulting `pos_x` is 0, which is
the case if and only if `ch` is newline or the prior `pos_x` equals
`H_CHARS - 1`. -/
theorem cputc_newline_iff (POS_BITS H_CHARS : Nat) (ch : Char) (s : Console)
    (hH : 1 ≤ H_CHARS) (hB : H_CHARS < 2 ^ POS_BITS)
    (hs : 0 ≤ s.pos_x ∧ s.pos_x < H_CHARS) :
    (newlineCount s.calls ≤ newlineCount (cputc POS_BITS H_CHARS ch s).calls ∧
      newlineCount (cputc POS_BITS H_CHARS ch s).calls ≤ newlineCount s.calls + 1) ∧
    (newlineCount (cputc POS_BITS H_CHARS ch s).calls = newlineCount s.calls + 1 ↔
      (cputc POS_BITS H_CHARS ch s).pos_x = 0) ∧
    ((cputc POS_BITS H_CHARS ch s).pos_x = 0 ↔ (ch = '\n' ∨ s.pos_x = H_CHARS - 1)) := by
  have hinc : (s.pos_x + 1) % 2 ^ POS_BITS = s.pos_x + 1 :=
    incr_no_wrap POS_BITS H_CHARS s.pos_x hs.2 (Nat.le_of_lt hB) (by omega)
  rw [cputc_newlineCount, cputc_pos_x, callsOf_eq, hinc]
  by_cases hc : ch = '\n'
  · simp [hc, newlineCount]
  · by_cases hw : s.pos_x + 1 ≥ H_CHARS
    · have he : s.pos_x = H_CHARS - 1 := by omega
      simp only [if_neg hc, if_pos hw]
      simp [newlineCount, hc, he]
    · have hne : s.pos_x ≠ H_CHARS - 1 := by omega
      simp only [if_neg hc, if_neg hw]
      simp [newlineCount, hc, hne]

theorem cputc_newline_iff_witness :
    (1 ≤ 40 ∧ 40 < 2 ^ 8 ∧ (0 ≤ 39 ∧ 39 < 40)) ∧
    (newlineCount [] ≤ newlineCount (cputc 8 40 'A' ⟨39, []⟩).calls ∧
      newlineCount (cputc 8 40 'A' ⟨39, []⟩).calls ≤ newlineCount [] + 1) ∧
    (newlineCount (cputc 8 40 'A' ⟨39, []⟩).calls = newlineCount [] + 1 ↔
      (cputc 8 40 'A' ⟨39, []⟩).pos_x = 0) ∧
    ((cputc 8 40 'A' ⟨39, []⟩).pos_x = 0 ↔ ('A' = '\n' ∨ (39 : Nat) = 40 - 1)) :=
  ⟨by decide, cputc_newline_iff 8 40 'A' ⟨39, []⟩ (by decide) (by decide) (by decide)⟩

/-! ## A full line followed by a newline -/

/-- C11, as stated for every `H_CHARS >= 1`, fails for an 8-bit `pos_x`
(`uint8_t`) at `H_CHARS = 256`: from `pos_x = 0`, 256 characters `'A'` bring
`pos_x` back to 0 by the wrap of the counter without any `newline` call, and
the following `'\n'` calls `newline` once: one call in total, not two. -/
theorem cputcAll_full_line_newline_counterexample :
    (1 ≤ 256 ∧ (Console.mk 0 []).pos_x = 0 ∧ (List.replicate 256 'A').length = 256 ∧
      ∀ c ∈ List.replicate 256 'A', c ≠ '\n') ∧
    newlineCount (cputcAll 8 256 (List.replicate 256 'A') ⟨0, []⟩).calls = 0 ∧
    newlineCount (cputcAll 8 256 (List.replicate 256 'A' ++ ['\n']) ⟨0, []⟩).calls = 1 ∧
    ¬ (newlineCount (cputcAll 8 256 (List.replicate 256 'A' ++ ['\n']) ⟨0, []⟩).calls =
        newlineCount [] + 2) := by
  have hmem : ∀ c ∈ List.replicate 256 'A', c ≠ '\n' := by
    intro c hc
    rw [List.eq_of_mem_replicate hc]
    decide
  have hrun : newlineCount (cputcAll 8 256 (List.replicate 256 'A') ⟨0, []⟩).calls = 0 :=
    (cputcAll_run_no_wrap 8 256 (List.replicate 256 'A') ⟨0, []⟩ (by decide) hmem).2
  have hall :
      newlineCount (cputcAll 8 256 (List.replicate 256 'A' ++ ['\n']) ⟨0, []⟩).calls = 1 := by
    rw [cputcAll_append, cputcAll_singleton, cputc_newlineCount, hrun, callsOf_eq,
      if_pos rfl]
    rfl
  refine ⟨⟨by decide, rfl, List.length_replicate 256 'A', hmem⟩, hrun, hall, ?_⟩
  rw [hall]
  decide

/-- C11 (amended): an exactly full line followed by a newline advances twice:
for every `H_CHARS >= 1` that is itself a value of the counter
(`H_CHARS < 2 ^ POS_BITS`, at most 255 for `uint8_t`), starting at
`pos_x = 0`, writing `H_CHARS` non-newline characters and then `'\n'` calls
`newline` exactly two times (once for the automatic wrap after the last
character of the line, once for the newline character) and ends with
`pos_x = 0`. -/
theorem cputcAll_full_line_newline (POS_BITS H_CHARS : Nat) (cs : List Char)
    (s : Console)
    (hH : 1 ≤ H_CHARS) (hB : H_CHARS < 2 ^ POS_BITS)
    (hs : s.pos_x = 0) (hlen : cs.length = H_CHARS)
    (hcs : ∀ c ∈ cs, c ≠ '\n') :
    (cputcAll POS_BITS H_CHARS (cs ++ ['\n']) s).pos_x = 0 ∧
    newlineCount (cputcAll POS_BITS H_CHARS cs s).calls = newlineCount s.calls + 1 ∧
    newlineCount (cputcAll POS_BITS H_CHARS (cs ++ ['\n']) s).calls =
      newlineCount s.calls + 2 := by
  have hpos : 0 < H_CHARS := hH
  have hin : s.pos_x < H_CHARS := by omega
  obtain ⟨_, hk⟩ := cputcAll_run POS_BITS H_CHARS cs s hin hB hcs
  rw [hs, hlen, Nat.zero_add, Nat.div_self hpos] at hk
  refine ⟨?_, hk, ?_⟩
  · rw [cputcAll_append]
    simp [cputcAll, cputc_pos_x]
  · rw [cputcAll_append]
    simp only [cputcAll]
    rw [cputc_newlineCount, hk, callsOf_eq]
    simp [newlineCount]

theorem cputcAll_full_line_newline_witness :
    (1 ≤ 3 ∧ 3 < 2 ^ 8 ∧ (Console.mk 0 []).pos_x = 0 ∧ ['a', 'b', 'c'].length = 3 ∧
      ∀ c ∈ ['a', 'b', 'c'], c ≠ '\n') ∧
    (cputcAll 8 3 (['a', 'b', 'c'] ++ ['\n']) ⟨0, []⟩).pos_x = 0 ∧
    newlineCount (cputcAll 8 3 ['a', 'b', 'c'] ⟨0, []⟩).calls = newlineCount [] + 1 ∧
    newlineCount (cputcAll 8 3 (['a', 'b', 'c'] ++ ['\n']) ⟨0, []⟩).calls =
      newlineCount [] + 2 :=
  ⟨by decide,
   cputcAll_full_line_newline 8 3 ['a', 'b', 'c'] ⟨0, []⟩
     (by decide) (by decide) rfl rfl (by decide)⟩

end Conio
